import Mathlib

/-!
Verification of the trusted-proxy chain resolver (warp-real-ip).

The source (src/lib.rs) is shallowly embedded:
* `IpNetworks` / `IpNetworks.contains` — the trust set; each configured
  network is represented by its membership test (the network-level
  `contains` of the external ipnetwork crate is treated as a black box).
* `firstUntrustedHop` / `real_ip` — the hop-walking loop of `real_ip`:
  hops are the claimed addresses followed by the peer, walked in reverse,
  returning the first hop not in the trust set; if all were trusted, fall
  back to the first claimed address, or the peer when none were claimed.
* header strings are lists of characters; the tokenizer, normalizer and
  the typed list parser are embedded further below.
-/

/-- A set of IP networks, as in `struct IpNetworks`.  Each element of
`networks` stands for one `IpNetwork` value, represented by its membership
test over addresses. -/
structure IpNetworks (Ip : Type) where
  networks : List (Ip → Bool)

/-- `IpNetworks::contains`: true iff some member network contains `addr`. -/
def IpNetworks.contains {Ip : Type} (s : IpNetworks Ip) (addr : Ip) : Bool :=
  s.networks.any (fun network => network addr)

/-- The `for hop in hops.rev() { if !trusted.contains(hop) { return hop } }`
loop of `real_ip`, applied to an already-reversed hop list. -/
def firstUntrustedHop {Ip : Type} (trusted : IpNetworks Ip) : List Ip → Option Ip
  | [] => none
  | hop :: rest =>
    if ! trusted.contains hop then some hop else firstUntrustedHop trusted rest

/-- The resolution closure of `real_ip`: given the trust set, the optional
peer address and the claimed forwarded-for addresses, compute the resolved
client address.  Mirrors lines 78–90 of src/lib.rs: the hop chain is the
claimed addresses followed by the peer, walked in reverse; if every hop is
trusted, fall back to `forwarded_for.first()` or else the peer. -/
def real_ip {Ip : Type} (trusted_proxies : IpNetworks Ip)
    (addr : Option Ip) (forwarded_for : List Ip) : Option Ip :=
  addr.map (fun a =>
    match firstUntrustedHop trusted_proxies ((forwarded_for ++ [a]).reverse) with
    | some hop => hop
    | none => (forwarded_for.head?).getD a)

/-- `firstUntrustedHop` is exactly `List.find?` with the untrusted test. -/
theorem firstUntrustedHop_eq_find {Ip : Type} (trusted : IpNetworks Ip)
    (l : List Ip) :
    firstUntrustedHop trusted l = l.find? (fun h => ! trusted.contains h) := by
  induction l with
  | nil => rfl
  | cons hop rest ih =>
    by_cases h : trusted.contains hop = true
    · simp [firstUntrustedHop, List.find?, h, ih]
    · simp only [Bool.not_eq_true] at h
      simp [firstUntrustedHop, List.find?, h, ih]

/-- If every element is trusted, the loop exhausts without returning. -/
theorem firstUntrustedHop_eq_none {Ip : Type} (trusted : IpNetworks Ip)
    (l : List Ip) (h : ∀ x ∈ l, trusted.contains x = true) :
    firstUntrustedHop trusted l = none := by
  induction l with
  | nil => rfl
  | cons hop rest ih =>
    have hh := h hop (by simp)
    simp only [firstUntrustedHop, hh, Bool.not_true, Bool.false_eq_true,
      if_false]
    exact ih (fun x hx => h x (by simp [hx]))

theorem reverse_chain {Ip : Type} (ff : List Ip) (a : Ip) :
    (ff ++ [a]).reverse = a :: ff.reverse := by
  simp

/-- C1: For every known peer address, claimed-address list, and trust set:
building the hop chain as the claimed addresses in order followed by the
peer address, and walking it from last hop to first, the resolver returns
the first hop it encounters that is not contained in the trust set. -/
theorem resolver_returns_first_untrusted_hop {Ip : Type}
    (trusted : IpNetworks Ip) (ff : List Ip) (peer u : Ip)
    (h : ((ff ++ [peer]).reverse).find? (fun hop => ! trusted.contains hop)
        = some u) :
    real_ip trusted (some peer) ff = some u := by
  simp only [real_ip, Option.map_some', firstUntrustedHop_eq_find, h]

theorem resolver_returns_first_untrusted_hop_witness :
    real_ip (⟨[fun a => a == 0]⟩ : IpNetworks Nat) (some 0) [5, 7] = some 7 :=
  resolver_returns_first_untrusted_hop ⟨[fun a => a == 0]⟩ [5, 7] 0 7 (by rfl)

/-- C2: if every hop in the chain (all claimed addresses and the peer) is
contained in the trust set, the resolver returns the first claimed address
when the claimed list is non-empty, and the peer address when the claimed
list is empty. -/
theorem resolver_all_trusted_fallback {Ip : Type}
    (trusted : IpNetworks Ip) (ff : List Ip) (peer : Ip)
    (h : ∀ x ∈ ff ++ [peer], trusted.contains x = true) :
    real_ip trusted (some peer) ff = some (ff.headD peer) := by
  have hn : firstUntrustedHop trusted ((ff ++ [peer]).reverse) = none := by
    apply firstUntrustedHop_eq_none
    intro x hx
    exact h x (by simp only [List.mem_reverse] at hx; exact hx)
  simp only [real_ip, Option.map_some', hn]
  cases ff <;> rfl

theorem resolver_all_trusted_fallback_witness :
    real_ip (⟨[fun a => a == 1, fun a => a == 2]⟩ : IpNetworks Nat)
      (some 2) [1] = some 1 :=
  resolver_all_trusted_fallback ⟨[fun a => a == 1, fun a => a == 2]⟩ [1] 2
    (by decide)

/-- C5: if no peer address is available the resolution result is absent,
regardless of the claimed-address content. -/
theorem resolver_no_peer_absent {Ip : Type}
    (trusted : IpNetworks Ip) (ff : List Ip) :
    real_ip trusted none ff = none := rfl

/-- C9: if the trust set is empty, the resolved address equals the peer
address, regardless of the claimed-address content. -/
theorem resolver_empty_trust_peer {Ip : Type} (ff : List Ip) (peer : Ip) :
    real_ip (⟨[]⟩ : IpNetworks Ip) (some peer) ff = some peer := by
  have hc : (⟨[]⟩ : IpNetworks Ip).contains peer = false := rfl
  simp [real_ip, reverse_chain, firstUntrustedHop, hc]

/-- C10: when the immediate peer is not contained in the trust set,
resolution returns the peer's address, and in particular the result is
identical for any two claimed-address lists: forwarded-header content
cannot influence the resolved address. -/
theorem resolver_untrusted_peer_independent {Ip : Type}
    (trusted : IpNetworks Ip) (peer : Ip)
    (h : trusted.contains peer = false) (ff1 ff2 : List Ip) :
    real_ip trusted (some peer) ff1 = some peer ∧
      real_ip trusted (some peer) ff2 = real_ip trusted (some peer) ff1 := by
  have key : ∀ ff : List Ip, real_ip trusted (some peer) ff = some peer := by
    intro ff
    simp [real_ip, reverse_chain, firstUntrustedHop, h]
  exact ⟨key ff1, (key ff2).trans (key ff1).symm⟩

theorem resolver_untrusted_peer_independent_witness :
    real_ip (⟨[fun a => a == 1]⟩ : IpNetworks Nat) (some 0) [3, 4] = some 0 ∧
      real_ip (⟨[fun a => a == 1]⟩ : IpNetworks Nat) (some 0) [] =
        real_ip (⟨[fun a => a == 1]⟩ : IpNetworks Nat) (some 0) [3, 4] :=
  resolver_untrusted_peer_independent ⟨[fun a => a == 1]⟩ 0 (by rfl) [3, 4] []

/-! ## Header value tokenizer (`CommaSeparatedIterator`)

Header values are embedded as `List Char`.  The Rust iterator walks
`char_indices` of the target string, keeping a scanner state and the start
position `s` of the current token, and yields subslices of the target.
Positions are counted in characters here; the Rust byte positions always
sit on character boundaries at the points the scanner records, so the
yielded character sequences coincide. -/

/-- The double-quote character. -/
def dq : Char := Char.ofNat 34

/-- The backslash character. -/
def bs : Char := Char.ofNat 92

/-- `target[a..b]` as a character slice. -/
def sliceChars (target : List Char) (a b : Nat) : List Char :=
  (target.take b).drop a

/-- `CharIndices`: the characters of the remainder paired with their
positions, starting at position `i`. -/
def charIndicesFrom (i : Nat) : List Char → List (Nat × Char)
  | [] => []
  | c :: rest => (i, c) :: charIndicesFrom (i + 1) rest

/-- Scanner states of `CommaSeparatedIteratorState`. -/
inductive CSState where
  | Default
  | Quoted
  | QuotedPair
  | Token
  | PostambleForQuoted
deriving DecidableEq

/-- The loop of `CommaSeparatedIterator::next`, run to exhaustion: consumes
the remaining `(position, character)` pairs with current state `st` and
token start `s`, producing the list of all yielded tokens. -/
def commaSeparatedAux (target : List Char) :
    List (Nat × Char) → CSState → Nat → List (List Char)
  | [], st, s =>
    match st with
    | .Default => []
    | .PostambleForQuoted => []
    | _ => [target.drop s]
  | (i, c) :: rest, st, s =>
    match st with
    | .Default =>
      if c = dq then commaSeparatedAux target rest .Quoted i
      else if c = ' ' ∨ c = '\t' then commaSeparatedAux target rest .Default s
      else if c = ',' then
        sliceChars target i i :: commaSeparatedAux target rest .Default s
      else commaSeparatedAux target rest .Token i
    | .Quoted =>
      if c = dq then
        sliceChars target s (i + 1) ::
          commaSeparatedAux target rest .PostambleForQuoted s
      else if c = bs then commaSeparatedAux target rest .QuotedPair s
      else commaSeparatedAux target rest .Quoted s
    | .QuotedPair => commaSeparatedAux target rest .Quoted s
    | .Token =>
      if c = ',' then
        sliceChars target s i :: commaSeparatedAux target rest .Default s
      else commaSeparatedAux target rest .Token s
    | .PostambleForQuoted =>
      if c = ',' then commaSeparatedAux target rest .Default s
      else commaSeparatedAux target rest .PostambleForQuoted s

/-- Collecting `CommaSeparatedIterator::new(s)`. -/
def tokenize (s : List Char) : List (List Char) :=
  commaSeparatedAux s (charIndicesFrom 0 s) .Default 0

example :
    tokenize ['a', 'b', 'c', ',', 'd', 'e', 'f', ',', ' ', 'g', 'h', 'i',
        ',', '\t', 'j', 'k', 'l', ' ', ',', ' ', 'm', 'n', 'o', ',', '\t',
        'p', 'q', 'r'] =
      [['a', 'b', 'c'], ['d', 'e', 'f'], ['g', 'h', 'i'], ['j', 'k', 'l', ' '],
        ['m', 'n', 'o'], ['p', 'q', 'r']] := by decide

example :
    tokenize ['a', ',', dq, 'd', bs, dq, 'e', dq, ' ', 'x', ',', 'f'] =
      [['a'], [dq, 'd', bs, dq, 'e', dq], ['f']] := by decide

example : tokenize [','] = [[]] := by decide

example : tokenize [] = [] := by decide

/-! ## Token normalizer (`maybe_quoted`, `maybe_bracketed`) and the typed
list parser (`CommaSeparated::from_str`). -/

/-- The scan loop inside `maybe_quoted` after the opening quote has been
consumed: `esc = false` is Rust state `0`, `esc = true` the state after a
backslash.  In state `0` an unescaped quote breaks the loop, a backslash
switches to the escaped state, every other character is copied; in the
escaped state the character is copied unconditionally. -/
def mq_scan : Bool → List Char → List Char
  | _, [] => []
  | false, c :: rest =>
    if c = dq then []
    else if c = bs then mq_scan true rest
    else c :: mq_scan false rest
  | true, c :: rest => c :: mq_scan false rest

/-- `maybe_quoted`: if the first character is a double quote, run the scan
on the remainder; otherwise return the input unchanged. -/
def maybe_quoted (x : List Char) : List Char :=
  match x with
  | [] => []
  | c :: rest => if c = dq then mq_scan false rest else c :: rest

/-- `maybe_bracketed`: strip one layer of square brackets.  The Rust code
reads `x.as_bytes()[0]` and `x.as_bytes()[x.len() - 1]` unconditionally,
which panics on the empty string; `none` models that panic. -/
def maybe_bracketed (x : List Char) : Option (List Char) :=
  match x with
  | [] => none
  | c :: rest =>
    if c = '[' ∧ rest.getLast? = some ']' then some rest.dropLast
    else some (c :: rest)

/-- Rust `str::trim`: whitespace removed from both ends. -/
def rustTrim (l : List Char) : List Char :=
  ((l.dropWhile Char.isWhitespace).reverse.dropWhile Char.isWhitespace).reverse

/-- Normalization applied to each token by `CommaSeparated::from_str`:
`maybe_bracketed(&maybe_quoted(x.trim()))`.  `none` is the panic on an
empty normalized token. -/
def normalizeTok (tok : List Char) : Option (List Char) :=
  maybe_bracketed (maybe_quoted (rustTrim tok))

/-- The `map`/`collect::<Result<Vec<_>, _>>` of `CommaSeparated::from_str`
over an already-tokenized list, for an arbitrary `FromStr` target whose
parse function is `p`.  The outer `Option` is `none` when the computation
panics (empty token reaching `maybe_bracketed`); the inner `Option` is
`none` when some token fails to parse (the collected `Result` is an error).
Collection is lazy: a parse failure stops the iteration before later
tokens are normalized. -/
def fromStrAux {T : Type} (p : List Char → Option T) :
    List (List Char) → Option (Option (List T))
  | [] => some (some [])
  | tok :: rest =>
    match normalizeTok tok with
    | none => none
    | some n =>
      match p n with
      | none => some none
      | some v =>
        match fromStrAux p rest with
        | none => none
        | some none => some none
        | some (some l) => some (some (v :: l))

/-- `CommaSeparated::<T>::from_str`, with `p` the parse function of the
target type `T`. -/
def CommaSeparated.fromStr {T : Type} (p : List Char → Option T)
    (s : List Char) : Option (Option (List T)) :=
  fromStrAux p (tokenize s)

example : maybe_quoted ['a', 'b', 'c'] = ['a', 'b', 'c'] := by decide
example : maybe_quoted [dq, 'a', 'b', 'c', dq] = ['a', 'b', 'c'] := by decide
example : maybe_quoted [dq, 'a', bs, dq, 'b', 'c', dq] = ['a', dq, 'b', 'c'] := by
  decide
example : maybe_bracketed ['a', 'b', 'c'] = some ['a', 'b', 'c'] := by decide
example : maybe_bracketed ['[', 'a', 'b', 'c', ']'] = some ['a', 'b', 'c'] := by
  decide
example : maybe_bracketed ['[', 'a', 'b', 'c'] = some ['[', 'a', 'b', 'c'] := by
  decide
example : maybe_bracketed ['a', 'b', 'c', ']'] = some ['a', 'b', 'c', ']'] := by
  decide

theorem dq_ne_space : dq ≠ ' ' := by decide

theorem mq_scan_clean_append (pre rest : List Char)
    (h : ∀ a ∈ pre, a ≠ dq ∧ a ≠ bs) :
    mq_scan false (pre ++ rest) = pre ++ mq_scan false rest := by
  induction pre with
  | nil => rfl
  | cons c pre ih =>
    have hc := h c (by simp)
    simp only [List.cons_append, mq_scan, if_neg hc.1, if_neg hc.2,
      List.cons.injEq, true_and]
    exact ih (fun a ha => h a (by simp [ha]))

theorem maybe_quoted_dq (y : List Char) :
    maybe_quoted (dq :: y) = mq_scan false y := by
  simp [maybe_quoted]

/-- C8: `maybe_quoted` behavior: a token not starting with a double quote
is returned unchanged; for one that does, characters after the opening
quote are copied, a backslash copies the next character verbatim whatever
it is, an unescaped double quote ends the scan discarding the remainder,
and end-of-string without a closing quote returns the accumulated output;
together with the three concrete examples `unquote(abc) = abc`,
`unquote("abc") = abc`, and the escaped quote preserved literally. -/
theorem maybe_quoted_spec :
    (maybe_quoted [] = [] ∧
      ∀ (c : Char), c ≠ dq → ∀ rest : List Char,
        maybe_quoted (c :: rest) = c :: rest) ∧
    (∀ pre post : List Char, (∀ a ∈ pre, a ≠ dq ∧ a ≠ bs) →
      maybe_quoted (dq :: (pre ++ dq :: post)) = pre) ∧
    (∀ pre : List Char, ∀ c : Char, ∀ post : List Char,
      (∀ a ∈ pre, a ≠ dq ∧ a ≠ bs) →
      maybe_quoted (dq :: (pre ++ bs :: c :: dq :: post)) = pre ++ [c]) ∧
    (∀ pre : List Char, (∀ a ∈ pre, a ≠ dq ∧ a ≠ bs) →
      maybe_quoted (dq :: pre) = pre) ∧
    maybe_quoted ['a', 'b', 'c'] = ['a', 'b', 'c'] ∧
    maybe_quoted [dq, 'a', 'b', 'c', dq] = ['a', 'b', 'c'] ∧
    maybe_quoted [dq, 'a', bs, dq, 'b', 'c', dq] = ['a', dq, 'b', 'c'] := by
  refine ⟨⟨rfl, ?_⟩, ?_, ?_, ?_, by decide, by decide, by decide⟩
  · intro c hc rest
    simp [maybe_quoted, hc]
  · intro pre post h
    rw [maybe_quoted_dq, mq_scan_clean_append pre _ h]
    simp [mq_scan]
  · intro pre c post h
    rw [maybe_quoted_dq, mq_scan_clean_append pre _ h]
    have hbs : ¬ (bs = dq) := by decide
    simp [mq_scan, hbs]
  · intro pre h
    rw [maybe_quoted_dq]
    have h0 : mq_scan false ([] : List Char) = [] := rfl
    have := mq_scan_clean_append pre [] h
    rw [List.append_nil, h0, List.append_nil] at this
    exact this

theorem maybe_quoted_spec_witness :
    maybe_quoted ['x', 'y'] = ['x', 'y'] ∧
      maybe_quoted (dq :: (['a'] ++ dq :: ['z'])) = ['a'] :=
  ⟨maybe_quoted_spec.1.2 'x' (by decide) ['y'],
    maybe_quoted_spec.2.1 ['a'] ['z'] (by decide)⟩

/-- C3: the pipeline does NOT guard bracket-stripping against the empty
token.  The tokenizer yields a zero-length token from a lone comma,
`maybe_bracketed` reads byte 0 of the empty string — modelled as `none`,
the panic — and the whole list parse panics (`none`) instead of failing
for that token.  This contradicts the specified "parse failure, not a
crash" behavior. -/
theorem empty_token_panic {T : Type} (p : List Char → Option T) :
    tokenize [','] = [[]] ∧ maybe_bracketed [] = none ∧
      CommaSeparated.fromStr p [','] = none := by
  exact ⟨by decide, rfl, rfl⟩

theorem fromStrAux_join {T : Type} (p : List Char → Option T)
    (toks : List (List Char)) :
    toks.mapM (fun tok => (normalizeTok tok).bind p) =
      (fromStrAux p toks).join := by
  induction toks with
  | nil => rfl
  | cons tok rest ih =>
    rw [List.mapM_cons, ih]
    cases hn : normalizeTok tok with
    | none => simp [fromStrAux, hn]
    | some n =>
      cases hp : p n with
      | none => simp [fromStrAux, hn, hp]
      | some v =>
        cases hr : fromStrAux p rest with
        | none => simp [fromStrAux, hn, hp, hr]
        | some o => cases o <;> simp [fromStrAux, hn, hp, hr]

/-- C6: the typed list parse succeeds with the full list of parsed
addresses exactly when every token of the header value normalizes and
parses (the all-or-nothing `mapM` over the tokens succeeds); if any single
token fails, no partial result is produced. -/
theorem fromStr_all_or_nothing {T : Type} (p : List Char → Option T)
    (s : List Char) (l : List T) :
    CommaSeparated.fromStr p s = some (some l) ↔
      (tokenize s).mapM (fun tok => (normalizeTok tok).bind p) = some l := by
  rw [fromStrAux_join]
  unfold CommaSeparated.fromStr
  cases h : fromStrAux p (tokenize s) with
  | none => simp
  | some o => cases o <;> simp

theorem charIndicesFrom_append (l1 l2 : List Char) :
    ∀ k, charIndicesFrom k (l1 ++ l2) =
      charIndicesFrom k l1 ++ charIndicesFrom (k + l1.length) l2 := by
  induction l1 with
  | nil => intro k; simp [charIndicesFrom]
  | cons c l1 ih =>
    intro k
    show (k, c) :: charIndicesFrom (k + 1) (l1 ++ l2) =
      ((k, c) :: charIndicesFrom (k + 1) l1) ++
        charIndicesFrom (k + (l1.length + 1)) l2
    rw [ih (k + 1), show k + 1 + l1.length = k + (l1.length + 1) from by omega]
    rfl

theorem commaSeparatedAux_skip_ws (target : List Char) :
    ∀ (w : List Char) (rest : List (Nat × Char)) (k s0 : Nat),
      (∀ c ∈ w, c = ' ' ∨ c = '\t') →
      commaSeparatedAux target (charIndicesFrom k w ++ rest) .Default s0 =
        commaSeparatedAux target rest .Default s0 := by
  intro w
  induction w with
  | nil => intro rest k s0 _; rfl
  | cons c w ih =>
    intro rest k s0 h
    have hc := h c (by simp)
    have hd : ¬ c = dq := by rcases hc with h1 | h1 <;> subst h1 <;> decide
    simp only [charIndicesFrom, List.cons_append, commaSeparatedAux,
      if_neg hd, if_pos hc]
    exact ih rest (k + 1) s0 (fun a ha => h a (by simp [ha]))

theorem commaSeparatedAux_token_run (target : List Char) :
    ∀ (t : List Char) (k s0 : Nat), (∀ c ∈ t, ¬ c = ',') →
      commaSeparatedAux target (charIndicesFrom k t) .Token s0 =
        [target.drop s0] := by
  intro t
  induction t with
  | nil => intro k s0 _; rfl
  | cons c t ih =>
    intro k s0 h
    have hc := h c (by simp)
    simp only [charIndicesFrom, commaSeparatedAux, if_neg hc]
    exact ih (k + 1) s0 (fun a ha => h a (by simp [ha]))

theorem tokenize_eq_of_split (s w : List Char) (c : Char) (t : List Char)
    (hs : s = w ++ c :: t)
    (hw : ∀ a ∈ w, a = ' ' ∨ a = '\t')
    (hcd : ¬ (c = ' ' ∨ c = '\t')) (hcq : ¬ c = dq) (hcc : ¬ c = ',')
    (ht : ∀ a ∈ t, ¬ a = ',') :
    tokenize s = [c :: t] := by
  subst hs
  unfold tokenize
  rw [charIndicesFrom_append, commaSeparatedAux_skip_ws _ w _ _ _ hw]
  simp only [charIndicesFrom, Nat.zero_add]
  simp only [commaSeparatedAux, if_neg hcq, if_neg hcd, if_neg hcc]
  rw [commaSeparatedAux_token_run _ t _ _ ht]
  rw [List.drop_left]

theorem dropWhile_head_false (f : Char → Bool) :
    ∀ (l : List Char) (c : Char) (t : List Char),
      l.dropWhile f = c :: t → f c = false := by
  intro l
  induction l with
  | nil => intro c t h; simp [List.dropWhile] at h
  | cons a l ih =>
    intro c t h
    rw [List.dropWhile_cons] at h
    by_cases ha : f a = true
    · rw [if_pos ha] at h
      exact ih c t h
    · rw [if_neg ha] at h
      cases h
      simpa using ha

/-- C7 (amended): for all strings with no comma and no double quote that
contain at least one character other than space and tab, tokenizing yields
exactly one token, equal to the input with its leading spaces and tabs
removed. -/
theorem tokenize_single_token (s : List Char)
    (hnc : ∀ c ∈ s, ¬ c = ',' ∧ ¬ c = dq)
    (hne : ∃ c ∈ s, ¬ (c = ' ' ∨ c = '\t')) :
    tokenize s = [s.dropWhile (fun c => c = ' ' ∨ c = '\t')] := by
  cases hd : s.dropWhile (fun c => decide (c = ' ' ∨ c = '\t')) with
  | nil =>
    exfalso
    obtain ⟨c, hcs, hcns⟩ := hne
    have hall := List.dropWhile_eq_nil_iff.mp hd c hcs
    simp only [decide_eq_true_eq] at hall
    exact hcns hall
  | cons c t =>
    have hsplit := List.takeWhile_append_dropWhile
      (p := fun c => decide (c = ' ' ∨ c = '\t')) (l := s)
    rw [hd] at hsplit
    have hcf : (fun c => decide (c = ' ' ∨ c = '\t')) c = false :=
      dropWhile_head_false _ s c t hd
    simp only [decide_eq_false_iff_not] at hcf
    have hcs : c ∈ s := by rw [← hsplit]; simp
    have hts : ∀ a ∈ t, a ∈ s := by
      intro a ha; rw [← hsplit]; simp [ha]
    exact tokenize_eq_of_split s _ c t hsplit.symm
      (fun a ha => by simpa using List.mem_takeWhile_imp ha)
      hcf ((hnc c hcs).2) ((hnc c hcs).1)
      (fun a ha => (hnc a (hts a ha)).1)

theorem tokenize_single_token_witness :
    tokenize [' ', 'a', 'b', ' '] = [['a', 'b', ' ']] :=
  tokenize_single_token [' ', 'a', 'b', ' '] (by decide) (by decide)

/-- C7 counterexample: the input made of the letter a followed by a space
has no comma and no double quote, tokenizes to exactly one token that
keeps the trailing space, yet the trimmed input drops it, so the token is
not the trimmed input; and the all-whitespace input yields no token at
all rather than one. -/
theorem tokenize_single_token_counterexample :
    (∀ c ∈ ['a', ' '], ¬ c = ',' ∧ ¬ c = dq) ∧
      tokenize ['a', ' '] = [['a', ' ']] ∧
      rustTrim ['a', ' '] = ['a'] ∧
      (['a', ' '] : List Char) ≠ ['a'] ∧
      (∀ c ∈ [' '], ¬ c = ',' ∧ ¬ c = dq) ∧
      tokenize [' '] = [] := by
  refine ⟨by decide, by decide, by decide, by decide, by decide, by decide⟩

/-! ## Header selection (`get_forwarded_for`)

The warp filter chain of `get_forwarded_for` is embedded over the three
optional raw header values.  A filter `or`-chain falls through to the next
branch only when the previous branch rejects; `warp::header::<T>` rejects
when the header is absent or its `FromStr` parse fails.  The target
address type is abstract with parse function `p`; the external rfc7239
grammar collaborator for the standardized `forwarded` header is the black
box `rfc`, returning the claimed IP addresses it extracts.  The outer
`Option` in the result is `none` when the computation panics. -/

/-- The branches tried once `x-forwarded-for` has rejected: `x-real-ip`
(extracted as a plain string, so present means no rejection: an
unparseable value yields the empty list), then `forwarded`, then the
unconditional empty list. -/
def realIpBranch {T : Type} (p : List Char → Option T)
    (rfc : List Char → List T) (xrip fwd : Option (List Char)) :
    Option (List T) :=
  match xrip with
  | some v =>
    match maybe_bracketed (maybe_quoted v) with
    | none => none
    | some n =>
      match p n with
      | some ip => some [ip]
      | none => some []
  | none =>
    match fwd with
    | some v => some (rfc v)
    | none => some []

/-- `get_forwarded_for`: `x-forwarded-for` parsed as a comma-separated
list if present and parseable, else the `x-real-ip`/`forwarded`/empty
fallback chain. -/
def get_forwarded_for {T : Type} (p : List Char → Option T)
    (rfc : List Char → List T) (xff xrip fwd : Option (List Char)) :
    Option (List T) :=
  match xff with
  | some v =>
    match CommaSeparated.fromStr p v with
    | none => none
    | some (some l) => some l
    | some none => realIpBranch p rfc xrip fwd
  | none => realIpBranch p rfc xrip fwd

/-- Parse function recognizing only the single digit one. -/
def pDigit (s : List Char) : Option Nat :=
  if s = ['1'] then some 1 else none

/-- A black-box rfc7239 collaborator that always extracts the address 2. -/
def rfcTwo (_ : List Char) : List Nat := [2]

/-- C4 counterexample: with `x-forwarded-for` absent and `x-real-ip`
present but unparseable (value abc), the code returns the empty claimed
list without consulting the present `forwarded` header, whose parse
yields a non-empty list. -/
theorem header_precedence_counterexample :
    pDigit ['a', 'b', 'c'] = none ∧
      get_forwarded_for pDigit rfcTwo none (some ['a', 'b', 'c'])
        (some ['f']) = some [] ∧
      rfcTwo ['f'] = [2] ∧
      get_forwarded_for pDigit rfcTwo none (some ['a', 'b', 'c'])
        (some ['f']) ≠ some (rfcTwo ['f']) := by
  refine ⟨by decide, by decide, by decide, by decide⟩

/-- C4 (amended): header precedence is `x-forwarded-for` first (used when
present and parseable); when it is absent or unparseable, `x-real-ip` if
present concludes the selection — a parseable value gives a singleton
list and an unparseable one gives the empty list, the `forwarded` header
not being consulted; `forwarded` is consulted only when `x-forwarded-for`
was absent or unparseable and `x-real-ip` is absent; with none of the
three present the claimed list is empty. -/
theorem header_precedence {T : Type} (p : List Char → Option T)
    (rfc : List Char → List T) :
    (∀ s xrip fwd l, CommaSeparated.fromStr p s = some (some l) →
        get_forwarded_for p rfc (some s) xrip fwd = some l) ∧
    (∀ s xrip fwd, CommaSeparated.fromStr p s = some none →
        get_forwarded_for p rfc (some s) xrip fwd =
          get_forwarded_for p rfc none xrip fwd) ∧
    (∀ s fwd n v, maybe_bracketed (maybe_quoted s) = some n → p n = some v →
        get_forwarded_for p rfc none (some s) fwd = some [v]) ∧
    (∀ s fwd n, maybe_bracketed (maybe_quoted s) = some n → p n = none →
        get_forwarded_for p rfc none (some s) fwd = some []) ∧
    (∀ fwd, get_forwarded_for p rfc none none (some fwd) = some (rfc fwd)) ∧
    get_forwarded_for p rfc none none none = some [] := by
  refine ⟨?_, ?_, ?_, ?_, ?_, rfl⟩
  · intro s xrip fwd l h
    simp [get_forwarded_for, h]
  · intro s xrip fwd h
    simp [get_forwarded_for, h]
  · intro s fwd n v hn hv
    simp [get_forwarded_for, realIpBranch, hn, hv]
  · intro s fwd n hn hv
    simp [get_forwarded_for, realIpBranch, hn, hv]
  · intro fwd
    rfl

theorem header_precedence_witness :
    get_forwarded_for pDigit rfcTwo none (some ['x']) (some ['f']) =
      some [] :=
  (header_precedence pDigit rfcTwo).2.2.2.1 ['x'] (some ['f']) ['x']
    (by decide) (by decide)
